import Mathlib

/-!
Verification of the structural-analysis core of the hsf-training-ai-maintenance
repository: the Markdown parser (header, section, code-block extraction and
content-type classification), the JSON response normalizer of the AI client,
the notebook loader, and the per-file orchestration of the analyzer.

Python semantics that the source relies on (line splitting, str.strip,
regular-expression matching with backtracking) are embedded as executable
functions over lists of characters.
-/

namespace HSF

/-- Backtick character, written by code point to keep source text plain. -/
def btick : Char := Char.ofNat 96

/-- Whitespace for Python str.strip and the regex class backslash-s
(space, tab, newline, carriage return, vertical tab, form feed). -/
def pySpace (c : Char) : Bool :=
  c = ' ' || c = '\t' || c = '\n' || c = '\r' || c = Char.ofNat 11 || c = Char.ofNat 12

/-- Word character for the regex class backslash-w (ASCII letters, digits, underscore). -/
def isWordChar (c : Char) : Bool :=
  c.isAlphanum || c = '_'

/-- Test whether pat is an initial segment of s (model of str.startswith). -/
def leadsWith : List Char → List Char → Bool
  | [], _ => true
  | _ :: _, [] => false
  | p :: ps, c :: cs => p = c && leadsWith ps cs

/-- Test whether pat occurs as a contiguous substring of s (model of Python `in`). -/
def hasSub (pat : List Char) : List Char → Bool
  | [] => leadsWith pat []
  | c :: cs => leadsWith pat (c :: cs) || hasSub pat cs

/-- Index of the first occurrence of pat in s, if any (model of re left-to-right search). -/
def findSub (pat : List Char) : List Char → Option Nat
  | [] => if leadsWith pat [] then some 0 else none
  | c :: cs =>
    if leadsWith pat (c :: cs) then some 0
    else (findSub pat cs).map (· + 1)

/-- Split a character list at every occurrence of sep (model of Python str.split(sep)):
the empty input yields one empty piece, a trailing separator yields a trailing empty piece. -/
def splitOnChar (sep : Char) : List Char → List (List Char)
  | [] => [[]]
  | c :: cs =>
    let r := splitOnChar sep cs
    if c = sep then [] :: r
    else
      match r with
      | [] => [[c]]
      | l :: ls => (c :: l) :: ls

/-- Join pieces with a newline between them (model of a str.join with a newline). -/
def joinLines : List (List Char) → List Char
  | [] => []
  | [l] => l
  | l :: ls => l ++ '\n' :: joinLines ls

/-- Drop leading Python whitespace (model of str.lstrip). -/
def stripLead (s : List Char) : List Char := s.dropWhile pySpace

/-- Drop trailing Python whitespace (model of str.rstrip). -/
def stripTail : List Char → List Char
  | [] => []
  | c :: cs =>
    let r := stripTail cs
    if r = [] && pySpace c then [] else c :: r

/-- Model of Python str.strip(): drop leading and trailing whitespace. -/
def pyStrip (s : List Char) : List Char := stripTail (stripLead s)

/-- Number of newline characters in a character list. -/
def countNL (l : List Char) : Nat := l.countP (fun c => c = '\n')

/-- Lower-case a character list (model of str.lower on the ASCII range). -/
def lowerChars (s : List Char) : List Char := s.map Char.toLower

/-- Lines of a document, exactly as Python content.split of a newline produces them. -/
def linesOf (content : String) : List (List Char) := splitOnChar '\n' content.data

/-- One extracted ATX header: level (number of hash marks), trimmed text, 1-based line. -/
structure Header where
  level : Nat
  text : String
  line : Nat
deriving Repr, DecidableEq

/-- One extracted section: title, level, joined content span, 1-based start line,
and end line (the last line belonging to the section). -/
structure MdSection where
  title : String
  level : Nat
  content : String
  start_line : Nat
  end_line : Nat
deriving Repr, DecidableEq

/-- One extracted code block: language tag (text when absent), stripped code,
1-based line number, and style tag fenced or indented. -/
structure MdCodeBlock where
  language : String
  code : String
  line : Nat
  type : String
deriving Repr, DecidableEq

/-- Model of the anchored regex match for ATX headers, one to six hash marks, then
at least one whitespace character, then a non-empty remainder; the captured text is
the remainder after the greedy whitespace run, backed off by one character when the
whole remainder is whitespace (regex backtracking), finally stripped.
Returns the header level and text on a match (MarkdownParser.extract_headers, line 57). -/
def atxMatch (l : List Char) : Option (Nat × String) :=
  if 1 ≤ (l.takeWhile (fun c => c = '#')).length ∧ (l.takeWhile (fun c => c = '#')).length ≤ 6 then
    match l.drop (l.takeWhile (fun c => c = '#')).length with
    | [] => none
    | c :: cs =>
      if pySpace c ∧ cs ≠ [] then
        some ((l.takeWhile (fun c => c = '#')).length,
          String.mk (pyStrip ((c :: cs).drop
            (min ((c :: cs).takeWhile pySpace).length ((c :: cs).length - 1)))))
      else none
  else none

/-- Embedding of MarkdownParser.extract_headers: scan every line, keep the ATX
matches with their 1-based line numbers. -/
def extract_headers (content : String) : List Header :=
  (linesOf content).enum.filterMap (fun p =>
    (atxMatch p.2).map (fun m => { level := m.1, text := m.2, line := p.1 + 1 }))

/-- Inner loop of MarkdownParser.extract_sections: the end line of a section is the
line before the next header of level at most lvl, or the default (document length). -/
def findEnd (lvl : Nat) (dflt : Nat) : List Header → Nat
  | [] => dflt
  | h :: t => if h.level ≤ lvl then h.line - 1 else findEnd lvl dflt t

/-- Embedding of MarkdownParser.extract_sections: one section per header, spanning
from the header line to the line before the next header of the same or higher level. -/
def extract_sections (content : String) : List MdSection :=
  let headers := extract_headers content
  let lines := linesOf content
  headers.enum.map (fun p =>
    let hd := p.2
    let start := hd.line - 1
    let endLine := findEnd hd.level lines.length (headers.drop (p.1 + 1))
    { title := hd.text
      level := hd.level
      content := String.mk (joinLines ((lines.drop start).take (endLine - start)))
      start_line := start + 1
      end_line := endLine })

/-- Insert a key into a Python-dict model: overwrite in place, else append. -/
def dictInsert (k v : String) (d : List (String × String)) : List (String × String) :=
  if d.any (fun p => p.1 = k) then d.map (fun p => if p.1 = k then (k, v) else p)
  else d ++ [(k, v)]

/-- Look a key up in the Python-dict model. -/
def dictGet (d : List (String × String)) (k : String) : Option String :=
  (d.find? (fun p => p.1 = k)).map (fun p => p.2)

/-- Quote characters stripped from metadata values. -/
def quoteChar (c : Char) : Bool := c = Char.ofNat 34 || c = Char.ofNat 39

/-- Drop leading characters of a class, from the head of a list. -/
def stripTailBy (p : Char → Bool) : List Char → List Char
  | [] => []
  | c :: cs =>
    let r := stripTailBy p cs
    if r = [] && p c then [] else c :: r

/-- Model of str.strip with an explicit character class, on both ends. -/
def pyStripBy (p : Char → Bool) (s : List Char) : List Char :=
  stripTailBy p (s.dropWhile p)

/-- One frontmatter line: split at the first colon, strip the key, strip the value
of whitespace and then of surrounding quotes. -/
def metaLine (d : List (String × String)) (l : List Char) : List (String × String) :=
  match findSub [':'] l with
  | none => d
  | some i =>
    let key := String.mk (pyStrip (l.take i))
    let value := String.mk (pyStripBy quoteChar (pyStrip (l.drop (i + 1))))
    dictInsert key value d

/-- Embedding of MarkdownParser.extract_metadata: an anchored non-greedy match of a
leading frontmatter block delimited by triple-dash lines; the shortest body is taken
(first later occurrence of a newline, three dashes, newline); each body line with a
colon becomes a key-value pair. -/
def extract_metadata (content : String) : List (String × String) :=
  let s := content.data
  if leadsWith ['-', '-', '-', '\n'] s then
    let rest := s.drop 4
    match findSub ['\n', '-', '-', '-', '\n'] rest with
    | some i => (splitOnChar '\n' (rest.take i)).foldl metaLine []
    | none => []
  else []

/-- Three backticks, the fence delimiter of the regex. -/
def tbq : List Char := [btick, btick, btick]

/-- Model of one attempted match of the fenced-block regex at the head of s:
three backticks, an optional greedy word-character run that must be followed by a
newline, then the shortest body ending at the next three backticks. Returns the
optional language run, the body, and the suffix after the match. -/
def tryFence (s : List Char) : Option (Option (List Char) × List Char × List Char) :=
  if leadsWith tbq s then
    match (s.drop 3).drop ((s.drop 3).takeWhile isWordChar).length with
    | c :: body0 =>
      if c = '\n' then
        match findSub tbq body0 with
        | some j =>
          some (if (s.drop 3).takeWhile isWordChar = [] then none
                else some ((s.drop 3).takeWhile isWordChar),
                body0.take j, (body0.drop j).drop 3)
        | none => none
      else none
    | [] => none
  else none

/-- Left-to-right non-overlapping scan for fenced blocks (model of re.finditer):
nl counts the newlines before the current position, so a recorded line number is
the newline count before the match start plus one. Fuel bounds the recursion and
any value at least the length of s is enough. -/
def scanFenced : Nat → List Char → Nat → List MdCodeBlock
  | 0, _, _ => []
  | _ + 1, [], _ => []
  | fuel + 1, c :: cs, nl =>
    match tryFence (c :: cs) with
    | some (lang, body, after) =>
      { language := match lang with | some w => String.mk w | none => "text"
        code := String.mk (pyStrip body)
        line := nl + 1
        type := "fenced" } :: scanFenced fuel after (nl + 1 + countNL body)
    | none => scanFenced fuel cs (nl + if c = '\n' then 1 else 0)

/-- Fenced blocks of a document (first pass of extract_code_blocks). -/
def fencedBlocks (content : String) : List MdCodeBlock :=
  scanFenced content.data.length content.data 0

/-- Four spaces, the indentation prefix of an indented block line. -/
def fourSpaces : List Char := [' ', ' ', ' ', ' ']

/-- Second pass of extract_code_blocks: contiguous runs of lines prefixed by four
spaces or a tab, each run one block with one unit of indentation dropped; the state
holds the 1-based start line and the collected pieces of the open run, and i is the
0-based index of the current line. -/
def indentedScan : List (List Char) → Nat → Option (Nat × List (List Char)) → List MdCodeBlock
  | [], _, none => []
  | [], _, some (st, cur) =>
    [{ language := "text", code := String.mk (joinLines cur), line := st, type := "indented" }]
  | l :: ls, i, stt =>
    if leadsWith fourSpaces l then
      match stt with
      | none => indentedScan ls (i + 1) (some (i + 1, [l.drop 4]))
      | some (st, cur) => indentedScan ls (i + 1) (some (st, cur ++ [l.drop 4]))
    else if leadsWith ['\t'] l then
      match stt with
      | none => indentedScan ls (i + 1) (some (i + 1, [l.drop 1]))
      | some (st, cur) => indentedScan ls (i + 1) (some (st, cur ++ [l.drop 1]))
    else
      match stt with
      | none => indentedScan ls (i + 1) none
      | some (st, cur) =>
        { language := "text", code := String.mk (joinLines cur), line := st, type := "indented" }
          :: indentedScan ls (i + 1) none

/-- Indented blocks of a document (second pass of extract_code_blocks). -/
def indentedBlocks (content : String) : List MdCodeBlock :=
  indentedScan (linesOf content) 0 none

/-- Embedding of MarkdownParser.extract_code_blocks: all fenced blocks (in document
order) followed by all indented blocks (in document order). -/
def extract_code_blocks (content : String) : List MdCodeBlock :=
  fencedBlocks content ++ indentedBlocks content

/-- Case-insensitive keyword containment in a header text. -/
def textHas (kw : List Char) (h : Header) : Bool :=
  hasSub kw (lowerChars h.text.data)

/-- Embedding of MarkdownParser._determine_content_type: explicit metadata type
first, then the keyword cascade over header texts and code-block presence (the
booleans are computed up front exactly as the source does). -/
def determine_content_type (metadata : List (String × String)) (headers : List Header)
    (code_blocks : List MdCodeBlock) : String :=
  match dictGet metadata "type" with
  | some v => v
  | none =>
    let has_code := code_blocks.length > 0
    let has_exercises := headers.any (fun h =>
      textHas "exercise".data h || textHas "challenge".data h)
    let has_solutions := headers.any (fun h =>
      textHas "solution".data h || textHas "answer".data h)
    if has_exercises && has_solutions then "tutorial_with_exercises"
    else if has_exercises then "tutorial"
    else if has_code then "code_example"
    else if headers.any (textHas "introduction".data) then "introduction"
    else "documentation"

/-- Classification as the specification words it: explicit metadata type verbatim;
else exercise or challenge plus solution or answer keywords (case-insensitive) in
header text give tutorial_with_exercises; else exercise keywords alone give tutorial;
else any code block gives code_example; else an introduction keyword in a header
gives introduction; else documentation — first match wins. -/
def content_type_spec (metadata : List (String × String)) (headers : List Header)
    (code_blocks : List MdCodeBlock) : String :=
  match dictGet metadata "type" with
  | some v => v
  | none =>
    if (headers.any (fun h => textHas "exercise".data h || textHas "challenge".data h))
        && (headers.any (fun h => textHas "solution".data h || textHas "answer".data h)) then
      "tutorial_with_exercises"
    else if headers.any (fun h => textHas "exercise".data h || textHas "challenge".data h) then
      "tutorial"
    else if code_blocks.length > 0 then "code_example"
    else if headers.any (textHas "introduction".data) then "introduction"
    else "documentation"

def mdC1doc : String := "# A\nx\n## B\nb1\nb2\n## C\nc1\nc2\n# D"

def mdC2doc : String := "# Intro\n\nSome text.\n\n## Exercise\n\nDo X.\n\n## Solution\n\nAnswer."

def c7doc : String := "#  "

/-- Amended per-line rule: a line is a header exactly when it starts with one to six
hash marks followed by a whitespace character and at least one further character
(which may itself be whitespace); the level is the hash count, the text is the
remainder after the hashes trimmed of whitespace (possibly empty), the line number
is the 1-based position. -/
def amendedHeaderOf (i : Nat) (l : List Char) : Option Header :=
  match l.drop (l.takeWhile (fun c => c = '#')).length with
  | c :: d :: t =>
    if 1 ≤ (l.takeWhile (fun c => c = '#')).length ∧ (l.takeWhile (fun c => c = '#')).length ≤ 6
        ∧ pySpace c then
      some { level := (l.takeWhile (fun c => c = '#')).length,
             text := String.mk (pyStrip (c :: d :: t)), line := i + 1 }
    else none
  | _ => none

def c9doc : String := "# Top\n```\n# Inside\n```\ntail"

def c10doc : String := "    x\n\n```py\na\n```"

/-- Wrap a code text in a fence again: an opening fence line with the given
optional language tag, the code, and a closing fence line. -/
def wrapFence (tag : Option String) (code : String) : String :=
  String.mk (tbq ++ ((match tag with | some w => w.data | none => []) ++
    '\n' :: (code.data ++ '\n' :: tbq)))

/-- JSON value; number literals are kept as their lexeme. -/
inductive Json where
  | null
  | bool (b : Bool)
  | num (lit : String)
  | str (s : String)
  | arr (elems : List Json)
  | obj (members : List (String × Json))
deriving Repr

/-- Double quote character. -/
def qmark : Char := Char.ofNat 34

/-- Backslash character. -/
def bslash : Char := Char.ofNat 92

/-- Opening curly brace character. -/
def lbrace : Char := Char.ofNat 123

/-- Closing curly brace character. -/
def rbrace : Char := Char.ofNat 125

/-- Whitespace the JSON grammar skips between tokens. -/
def jsonWS (c : Char) : Bool := c = ' ' || c = '\t' || c = '\n' || c = '\r'

/-- Skip JSON inter-token whitespace. -/
def skipWS (s : List Char) : List Char := s.dropWhile jsonWS

/-- Decimal or hexadecimal digit value of a character, for string escapes. -/
def parseHex (c : Char) : Option Nat :=
  if '0' ≤ c ∧ c ≤ '9' then some (c.toNat - 48)
  else if 'a' ≤ c ∧ c ≤ 'f' then some (c.toNat - 87)
  else if 'A' ≤ c ∧ c ≤ 'F' then some (c.toNat - 55)
  else none

/-- ASCII digit test. -/
def isDigit (c : Char) : Bool := '0' ≤ c && c ≤ '9'

/-- Parse the body of a JSON string after the opening quote, handling the escape
sequences of the grammar; returns the decoded content and the input after the
closing quote. -/
def parseJStr : Nat → List Char → Option (List Char × List Char)
  | 0, _ => none
  | _ + 1, [] => none
  | fuel + 1, c :: cs =>
    if c = qmark then some ([], cs)
    else if c = bslash then
      match cs with
      | [] => none
      | e :: cs' =>
        if e = qmark then (parseJStr fuel cs').map (fun r => (qmark :: r.1, r.2))
        else if e = bslash then (parseJStr fuel cs').map (fun r => (bslash :: r.1, r.2))
        else if e = '/' then (parseJStr fuel cs').map (fun r => ('/' :: r.1, r.2))
        else if e = 'b' then (parseJStr fuel cs').map (fun r => (Char.ofNat 8 :: r.1, r.2))
        else if e = 'f' then (parseJStr fuel cs').map (fun r => (Char.ofNat 12 :: r.1, r.2))
        else if e = 'n' then (parseJStr fuel cs').map (fun r => ('\n' :: r.1, r.2))
        else if e = 'r' then (parseJStr fuel cs').map (fun r => ('\r' :: r.1, r.2))
        else if e = 't' then (parseJStr fuel cs').map (fun r => ('\t' :: r.1, r.2))
        else if e = 'u' then
          match cs' with
          | h1 :: h2 :: h3 :: h4 :: cs'' =>
            match parseHex h1, parseHex h2, parseHex h3, parseHex h4 with
            | some a, some b, some c2, some d =>
              (parseJStr fuel cs'').map
                (fun r => (Char.ofNat (((a * 16 + b) * 16 + c2) * 16 + d) :: r.1, r.2))
            | _, _, _, _ => none
          | _ => none
        else none
    else if c.toNat < 32 then none
    else (parseJStr fuel cs).map (fun r => (c :: r.1, r.2))

/-- Digit run and remainder. -/
def parseDigits (s : List Char) : List Char × List Char :=
  (s.takeWhile isDigit, s.dropWhile isDigit)

/-- Optional exponent part of a number lexeme. -/
def continueExp (acc : List Char) (s : List Char) : Option (List Char × List Char) :=
  match s with
  | c :: cs =>
    if c = 'e' ∨ c = 'E' then
      match cs with
      | d :: cs' =>
        if d = '+' ∨ d = '-' then
          match parseDigits cs' with
          | (ds, rest) => if ds = [] then none else some (acc ++ c :: d :: ds, rest)
        else
          match parseDigits cs with
          | (ds, rest) => if ds = [] then none else some (acc ++ c :: ds, rest)
      | [] => none
    else some (acc, s)
  | [] => some (acc, [])

/-- Optional fraction part of a number lexeme, then exponent. -/
def continueFrac (acc : List Char) (s : List Char) : Option (List Char × List Char) :=
  match s with
  | c :: cs =>
    if c = '.' then
      match parseDigits cs with
      | (ds, rest) => if ds = [] then none else continueExp (acc ++ c :: ds) rest
    else continueExp acc s
  | [] => continueExp acc s

/-- Number lexeme: optional sign, integer part without leading zeros, optional
fraction and exponent. -/
def parseNumLex (s : List Char) : Option (List Char × List Char) :=
  match s with
  | c :: cs =>
    if c = '-' then
      match cs with
      | d :: ds =>
        if d = '0' then continueFrac [c, d] ds
        else if isDigit d then
          match parseDigits ds with
          | (run, rest) => continueFrac (c :: d :: run) rest
        else none
      | [] => none
    else if c = '0' then continueFrac [c] cs
    else if isDigit c then
      match parseDigits cs with
      | (run, rest) => continueFrac (c :: run) rest
    else none
  | [] => none

/-- Comma-separated array elements up to the closing bracket. -/
def parseElemsWith (pv : List Char → Option (Json × List Char)) :
    Nat → List Char → Option (List Json × List Char)
  | 0, _ => none
  | fuel + 1, s =>
    match pv s with
    | none => none
    | some (v, rest) =>
      match skipWS rest with
      | c :: rest' =>
        if c = ',' then (parseElemsWith pv fuel rest').map (fun r => (v :: r.1, r.2))
        else if c = ']' then some ([v], rest')
        else none
      | [] => none

/-- Comma-separated object members up to the closing brace. -/
def parseMembersWith (pv : List Char → Option (Json × List Char)) :
    Nat → List Char → Option (List (String × Json) × List Char)
  | 0, _ => none
  | fuel + 1, s =>
    match skipWS s with
    | c :: rest =>
      if c = qmark then
        match parseJStr (rest.length + 1) rest with
        | some (key, rest1) =>
          match skipWS rest1 with
          | c1 :: rest2 =>
            if c1 = ':' then
              match pv rest2 with
              | some (v, rest3) =>
                match skipWS rest3 with
                | c2 :: rest4 =>
                  if c2 = ',' then
                    (parseMembersWith pv fuel rest4).map
                      (fun r => ((String.mk key, v) :: r.1, r.2))
                  else if c2 = rbrace then some ([(String.mk key, v)], rest4)
                  else none
                | [] => none
              | none => none
            else none
          | [] => none
        | none => none
      else none
    | [] => none

/-- Recursive-descent JSON value parser; the fuel bounds the nesting depth. -/
def parseValue : Nat → List Char → Option (Json × List Char)
  | 0, _ => none
  | fuel + 1, s =>
    match skipWS s with
    | [] => none
    | c :: cs =>
      if c = qmark then
        (parseJStr (cs.length + 1) cs).map (fun r => (Json.str (String.mk r.1), r.2))
      else if c = '[' then
        match skipWS cs with
        | d :: rest =>
          if d = ']' then some (Json.arr [], rest)
          else
            (parseElemsWith (fun t => parseValue fuel t) (cs.length + 1) cs).map
              (fun r => (Json.arr r.1, r.2))
        | [] => none
      else if c = lbrace then
        match skipWS cs with
        | d :: _ =>
          if d = rbrace then some (Json.obj [], (skipWS cs).drop 1)
          else
            (parseMembersWith (fun t => parseValue fuel t) (cs.length + 1) cs).map
              (fun r => (Json.obj r.1, r.2))
        | [] => none
      else if c = 'n' then
        if leadsWith ['u', 'l', 'l'] cs then some (Json.null, cs.drop 3) else none
      else if c = 't' then
        if leadsWith ['r', 'u', 'e'] cs then some (Json.bool true, cs.drop 3) else none
      else if c = 'f' then
        if leadsWith ['a', 'l', 's', 'e'] cs then some (Json.bool false, cs.drop 4) else none
      else
        match parseNumLex (c :: cs) with
        | some (lex, rest) => some (Json.num (String.mk lex), rest)
        | none => none

/-- Model of json.loads: parse one value and require only whitespace after it. -/
def json_loads (s : String) : Option Json :=
  match parseValue (s.data.length + 1) s.data with
  | some (v, rest) => if skipWS rest = [] then some v else none
  | none => none

/-- Fence-opening marker for a JSON block. -/
def jsonFenceA : List Char := tbq ++ ['j', 's', 'o', 'n']

/-- Fence-opening marker for a block starting with a brace. -/
def jsonFenceB : List Char := tbq ++ [lbrace]

/-- Loop of _parse_json_response: scan lines; a line whose strip starts with the
JSON fence markers opens a block (and is skipped), a bare fence line while inside
the block breaks the loop, lines inside the block are collected raw. -/
def collectJsonLines : List (List Char) → Bool → List (List Char)
  | [], _ => []
  | l :: ls, inb =>
    if leadsWith jsonFenceA (pyStrip l) || leadsWith jsonFenceB (pyStrip l) then
      collectJsonLines ls true
    else if pyStrip l = tbq ∧ inb then []
    else if inb then l :: collectJsonLines ls inb
    else collectJsonLines ls false

/-- Embedding of GeminiClient._parse_json_response: direct parse first, then the
fenced-block extraction, else the absent result. -/
def parse_json_response (response_text : String) : Option Json :=
  match json_loads response_text with
  | some v => some v
  | none =>
    match collectJsonLines (splitOnChar '\n' (pyStrip response_text.data)) false with
    | [] => none
    | jl => json_loads (String.mk (joinLines jl))

def c3fencedStructured : String := "```structured\n\x7b\"suggestions\":[]\x7d\n```"

def c3fencedJson : String := "```json\n\x7b\"suggestions\":[]\x7d\n```"

def c3notJson : String := "not json at all"

/-- Entry of the processed-content map handed to the AI stage: an optional error
marker (the error key of the fallback dict), the text payload, and the optional
metadata title. -/
structure ProcessedFile where
  err : Option String
  processed_content : String
  title : Option String
deriving Repr, DecidableEq

/-- Successful result of _process_single_content, as far as the AI stage reads it. -/
structure ParsedContent where
  processed_content : String
  title : Option String
deriving Repr, DecidableEq

/-- Embedding of HSFTrainingAnalyzer._process_all_content with the per-file
processor abstracted: a processing failure is caught and replaced by an entry
carrying the error string and the raw content as fallback payload. -/
def process_all_content (proc : String → String → Except String ParsedContent) :
    List (String × String) → List (String × ProcessedFile)
  | items => items.map (fun p =>
      match proc p.1 p.2 with
      | .ok d => (p.1, { err := none, processed_content := d.processed_content, title := d.title })
      | .error e => (p.1, { err := some e, processed_content := p.2, title := none }))

/-- Embedding of HSFTrainingAnalyzer._analyze_with_ai with the generative backend
abstracted as a function of payload, path and title. Returns the result map (in
iteration order) and the list of file paths for which the backend was called:
entries with an error marker are skipped, entries whose stripped payload is
shorter than 100 characters are skipped without a backend call, and otherwise the
backend result (absent on backend failure) is recorded. -/
def analyze_with_ai {α : Type} (backend : String → String → String → Option α) :
    List (String × ProcessedFile) → List (String × Option α) × List String
  | [] => ([], [])
  | (path, d) :: rest =>
    if d.err.isSome then
      ((path, none) :: (analyze_with_ai backend rest).1, (analyze_with_ai backend rest).2)
    else if (pyStrip d.processed_content.data).length < 100 then
      ((path, none) :: (analyze_with_ai backend rest).1, (analyze_with_ai backend rest).2)
    else
      ((path, backend d.processed_content path (d.title.getD path))
          :: (analyze_with_ai backend rest).1,
        path :: (analyze_with_ai backend rest).2)

def c4short : ProcessedFile :=
  { err := none, processed_content := "short", title := none }

def c4long : ProcessedFile :=
  { err := none, processed_content := String.mk (List.replicate 120 'a'), title := none }

/-- Backend that always fails, to compare a skip with a backend failure. -/
def c4failBackend : String → String → String → Option Unit := fun _ _ _ => none

def c5items : List (String × String) :=
  [("f1", String.mk (List.replicate 120 'a')), ("f2", "x"),
   ("f3", String.mk (List.replicate 120 'b'))]

/-- Processor that raises exactly on the second file. -/
def c5proc : String → String → Except String ParsedContent := fun p c =>
  if p = "f2" then Except.error "parse failure"
  else Except.ok { processed_content := c, title := none }

/-- Backend that answers with the file path. -/
def c5backend : String → String → String → Option String := fun _ p _ => some p

/-- One raw output record of a code cell. -/
structure NbOutput where
  output_type : String
  data : List (String × Json)
  name : Option String
  text : List String
deriving Repr

/-- One notebook cell. -/
structure NbCell where
  cell_type : String
  source : String
  metadata : List (String × Json)
  execution_count : Option Int
  outputs : List NbOutput
deriving Repr

/-- A loaded notebook: cells plus notebook-level metadata (values kept as JSON). -/
structure Notebook where
  cells : List NbCell
  metadata : List (String × Json)
deriving Repr

/-- Modelled from the spec and the two exceptions the source catches: the external
JSON decode plus notebook schema validation step (json.loads and nbformat, code
outside this repository) is a function that either yields a notebook or signals
one of the two failure kinds caught by load_notebook. -/
inductive LoadErr where
  | decodeError
  | validationError
deriving Repr, DecidableEq

/-- Embedding of NotebookParser.load_notebook: a loader failure of either caught
kind is logged and converted to the absent result. -/
def load_notebook (loader : String → Except LoadErr Notebook) (content : String) :
    Option Notebook :=
  match loader content with
  | .ok nb => some nb
  | .error _ => none

/-- Dictionary helpers over JSON-valued mappings. -/
def jGet (d : List (String × Json)) (k : String) : Option Json :=
  (d.find? (fun p => p.1 = k)).map (fun p => p.2)

/-- Insert with overwrite, preserving insertion order (Python dict assignment). -/
def jInsert (k : String) (v : Json) (d : List (String × Json)) : List (String × Json) :=
  if d.any (fun p => p.1 = k) then d.map (fun p => if p.1 = k then (k, v) else p)
  else d ++ [(k, v)]

/-- Embedding of NotebookParser.extract_metadata: copy the common fields that are
present, then the kernel-specification fields with unknown defaults. -/
def extract_metadata_nb (nb : Notebook) : List (String × Json) :=
  if nb.metadata.isEmpty then []
  else
    let base := ["title", "authors", "description", "keywords", "language"].foldl
      (fun acc f =>
        match jGet nb.metadata f with
        | some v => jInsert f v acc
        | none => acc) []
    match jGet nb.metadata "kernelspec" with
    | some (Json.obj kernel) =>
      jInsert "language" ((jGet kernel "language").getD (Json.str "unknown"))
        (jInsert "kernel_display_name" ((jGet kernel "display_name").getD (Json.str "unknown"))
          (jInsert "kernel_name" ((jGet kernel "name").getD (Json.str "unknown")) base))
    | _ => base

/-- Cell record of extract_cells_by_type: index, source and cell metadata; code
cells also carry execution count and outputs. -/
structure CellInfo where
  index : Nat
  source : String
  metadata : List (String × Json)
  execution_count : Option Int
  outputs : List NbOutput
deriving Repr

/-- Cells of one type, in order, as extract_cells_by_type groups them. -/
def cellsOfType (nb : Notebook) (t : String) : List CellInfo :=
  nb.cells.enum.filterMap (fun p =>
    if p.2.cell_type = t then
      some { index := p.1, source := p.2.source, metadata := p.2.metadata
             execution_count := if t = "code" then p.2.execution_count else none
             outputs := if t = "code" then p.2.outputs else [] }
    else none)

/-- Embedding of NotebookParser._extract_imports: trimmed lines beginning with
the import or from keywords. -/
def extract_imports (code : String) : List String :=
  (splitOnChar '\n' code.data).filterMap (fun l =>
    if leadsWith "import ".data (pyStrip l) || leadsWith "from ".data (pyStrip l) then
      some (String.mk (pyStrip l))
    else none)

/-- Embedding of NotebookParser._analyze_code_patterns: the fixed set of
substring-membership detectors over the cell source. -/
def analyze_code_patterns (code : String) : List (String × Bool) :=
  [("matplotlib", hasSub "matplotlib".data code.data || hasSub "plt.".data code.data),
   ("pandas", hasSub "pandas".data code.data || hasSub "pd.".data code.data),
   ("numpy", hasSub "numpy".data code.data || hasSub "np.".data code.data),
   ("scipy", hasSub "scipy".data code.data),
   ("sklearn", hasSub "sklearn".data code.data),
   ("tensorflow", hasSub "tensorflow".data code.data || hasSub "tf.".data code.data),
   ("pytorch", hasSub "torch".data code.data),
   ("root_analysis", hasSub "ROOT".data code.data || hasSub "uproot".data code.data),
   ("statistical_analysis",
     ["histogram", "fit", "chi2", "p-value", "distribution"].any
       (fun t => hasSub t.data (lowerChars code.data))),
   ("file_io",
     ["open(", "read(", "write(", "with open", "json.", "csv"].any
       (fun t => hasSub t.data code.data)),
   ("loops", ["for ", "while "].any (fun t => hasSub t.data code.data)),
   ("functions", hasSub "def ".data code.data),
   ("classes", hasSub "class ".data code.data)]

/-- Code block record of NotebookParser.extract_code_blocks. -/
structure NbCodeBlock where
  cell_index : Nat
  source : String
  execution_count : Option Int
  has_output : Bool
  imports : List String
  patterns : List (String × Bool)
  lines : Nat
deriving Repr, DecidableEq

/-- Embedding of NotebookParser.extract_code_blocks: non-empty code cells with
their import and pattern analysis. -/
def extract_code_blocks_nb (nb : Notebook) : List NbCodeBlock :=
  nb.cells.enum.filterMap (fun p =>
    if p.2.cell_type = "code" ∧ pyStrip p.2.source.data ≠ [] then
      some { cell_index := p.1, source := p.2.source
             execution_count := p.2.execution_count
             has_output := !p.2.outputs.isEmpty
             imports := extract_imports p.2.source
             patterns := analyze_code_patterns p.2.source
             lines := (splitOnChar '\n' p.2.source.data).length }
    else none)

/-- Embedding of NotebookParser.extract_markdown_content: stripped markdown cell
sources joined with blank spacing lines. -/
def extract_markdown_content (nb : Notebook) : String :=
  String.mk (joinLines (nb.cells.foldl
    (fun acc cell =>
      if cell.cell_type = "markdown" ∧ pyStrip cell.source.data ≠ [] then
        acc ++ [pyStrip cell.source.data, []]
      else acc) []))

/-- Embedding of NotebookParser._estimate_code_complexity. -/
def estimate_code_complexity (code : String) : String :=
  let lines := (splitOnChar '\n' code.data).filterMap
    (fun l => if pyStrip l = [] then none else some (pyStrip l))
  if lines.length = 0 then "empty"
  else if lines.length ≤ 3 then "simple"
  else if lines.length ≤ 10 then
    if ["def ", "class ", "for ", "while ", "if "].any
        (fun k => hasSub k.data code.data) then "intermediate"
    else "simple"
  else "complex"

/-- Learning-progression record; the cell-count ratio is kept as an exact
rational. -/
structure LearningProgression where
  total_cells : Nat
  code_to_markdown_ratio : ℚ
  has_introduction : Bool
  has_exercises : Bool
  has_conclusions : Bool
  complexity_progression : List (Nat × String)
deriving Repr, DecidableEq

/-- Embedding of NotebookParser.analyze_learning_progression. -/
def analyze_learning_progression (nb : Notebook) : LearningProgression :=
  let code_cells := (nb.cells.filter (fun c => c.cell_type = "code")).length
  let markdown_cells := (nb.cells.filter (fun c => c.cell_type = "markdown")).length
  let all_text := lowerChars (extract_markdown_content nb).data
  { total_cells := nb.cells.length
    code_to_markdown_ratio :=
      if markdown_cells > 0 then (code_cells : ℚ) / (markdown_cells : ℚ) else 0
    has_introduction :=
      ["introduction", "overview", "getting started"].any (fun t => hasSub t.data all_text)
    has_exercises :=
      ["exercise", "challenge", "try", "practice"].any (fun t => hasSub t.data all_text)
    has_conclusions :=
      ["conclusion", "summary", "wrap up"].any (fun t => hasSub t.data all_text)
    complexity_progression := nb.cells.enum.filterMap (fun p =>
      if p.2.cell_type = "code" then some (p.1, estimate_code_complexity p.2.source)
      else none) }

/-- Output record of NotebookParser.extract_outputs with its type-specific flags. -/
structure OutputInfo where
  cell_index : Nat
  output_index : Nat
  output_type : String
  has_plot : Option Bool
  has_html : Option Bool
  stream_name : Option String
  text_length : Option Nat
  has_data : Option Bool
deriving Repr, DecidableEq

/-- One output record with the flags the source attaches per output type. -/
def mkOutputInfo (ci oi : Nat) (o : NbOutput) : OutputInfo :=
  let base : OutputInfo :=
    { cell_index := ci, output_index := oi, output_type := o.output_type
      has_plot := none, has_html := none, stream_name := none
      text_length := none, has_data := none }
  if o.output_type = "display_data" then
    { base with has_plot := some (o.data.any (fun p => p.1 = "image/png"))
                has_html := some (o.data.any (fun p => p.1 = "text/html")) }
  else if o.output_type = "stream" then
    { base with stream_name := some (o.name.getD "unknown")
                text_length := some o.text.length }
  else if o.output_type = "execute_result" then
    { base with has_data := some (!o.data.isEmpty) }
  else base

/-- Embedding of NotebookParser.extract_outputs. -/
def extract_outputs (nb : Notebook) : List OutputInfo :=
  (nb.cells.enum.filter (fun p => p.2.cell_type == "code" && !p.2.outputs.isEmpty)).foldl
    (fun acc p => acc ++ p.2.outputs.enum.map (fun q => mkOutputInfo p.1 q.1 q.2)) []

/-- Embedding of NotebookParser._determine_notebook_type. -/
def determine_notebook_type (progression : LearningProgression)
    (code_blocks : List NbCodeBlock) : String :=
  if progression.has_exercises then "tutorial_with_exercises"
  else if progression.has_introduction && progression.has_conclusions then "complete_tutorial"
  else if code_blocks.length > 5 then "code_heavy_tutorial"
  else if progression.has_introduction then "introduction"
  else "notebook"

/-- Statistics block of analyze_notebook_structure. -/
structure NbStats where
  total_cells : Nat
  code_cells : Nat
  markdown_cells : Nat
  raw_cells : Nat
  total_code_lines : Nat
  unique_libraries : Nat
  cells_with_output : Nat
deriving Repr, DecidableEq

/-- Full result of analyze_notebook_structure (the set of unique libraries is
modelled as deduplication of the import list). -/
structure NbAnalysis where
  file_path : String
  metadata : List (String × Json)
  statistics : NbStats
  markdown_cells : List CellInfo
  code_cells : List CellInfo
  raw_cells : List CellInfo
  code_blocks : List NbCodeBlock
  learning_progression : LearningProgression
  outputs : List OutputInfo
  libraries : List String
  content_type : String
deriving Repr

/-- Embedding of NotebookParser.analyze_notebook_structure: a loader failure yields
exactly the error marker and nothing else; otherwise the full analysis is built. -/
def analyze_notebook_structure (loader : String → Except LoadErr Notebook)
    (content : String) (file_path : String) : Except String NbAnalysis :=
  match load_notebook loader content with
  | none => .error "Failed to load notebook"
  | some nb =>
    let md := cellsOfType nb "markdown"
    let cd := cellsOfType nb "code"
    let rawc := cellsOfType nb "raw"
    let code_blocks := extract_code_blocks_nb nb
    let progression := analyze_learning_progression nb
    let outputs := extract_outputs nb
    let unique_libraries := (code_blocks.foldl (fun acc b => acc ++ b.imports) []).dedup
    .ok { file_path := file_path
          metadata := extract_metadata_nb nb
          statistics :=
            { total_cells := nb.cells.length, code_cells := cd.length
              markdown_cells := md.length, raw_cells := rawc.length
              total_code_lines := (code_blocks.map (fun b => b.lines)).sum
              unique_libraries := unique_libraries.length
              cells_with_output := outputs.length }
          markdown_cells := md, code_cells := cd, raw_cells := rawc
          code_blocks := code_blocks, learning_progression := progression
          outputs := outputs, libraries := unique_libraries
          content_type := determine_notebook_type progression code_blocks }

/-- Loader that always signals a JSON decode failure. -/
def c6loader : String → Except LoadErr Notebook := fun _ => .error .decodeError

theorem takeWhile_len_le (p : α → Bool) (l : List α) : (l.takeWhile p).length ≤ l.length := by
  induction l with
  | nil => simp
  | cons a l ih =>
    by_cases h : p a
    · simpa [List.takeWhile_cons, h] using ih
    · simp [List.takeWhile_cons, h]

theorem dropWhile_eq_dropLen (p : α → Bool) (l : List α) :
    l.dropWhile p = l.drop (l.takeWhile p).length := by
  induction l with
  | nil => rfl
  | cons a l ih =>
    by_cases h : p a <;> simp [List.dropWhile_cons, List.takeWhile_cons, h, ih]

theorem dropWhile_dropWhile (p : α → Bool) (l : List α) :
    (l.dropWhile p).dropWhile p = l.dropWhile p := by
  induction l with
  | nil => rfl
  | cons a l ih => by_cases h : p a <;> simp [List.dropWhile_cons, h, ih]

theorem takeWhile_all_of_len (p : α → Bool) (l : List α)
    (hlen : (l.takeWhile p).length = l.length) : ∀ x ∈ l, p x = true := by
  induction l with
  | nil => simp
  | cons a l ih =>
    by_cases h : p a
    · simp only [List.takeWhile_cons, h, if_true, List.length_cons,
        Nat.add_right_cancel_iff] at hlen
      intro x hx
      rcases List.mem_cons.mp hx with rfl | hx
      · exact h
      · exact ih hlen x hx
    · simp [List.takeWhile_cons, h] at hlen

theorem all_space_pyStrip (l : List Char) (h : ∀ c ∈ l, pySpace c = true) :
    pyStrip l = [] := by
  unfold pyStrip stripLead
  rw [List.dropWhile_eq_nil_iff.mpr h]
  rfl

theorem findEnd_eq_find? (lvl dflt : Nat) (hs : List Header) :
    findEnd lvl dflt hs =
      match hs.find? (fun h2 => h2.level ≤ lvl) with
      | some h2 => h2.line - 1
      | none => dflt := by
  induction hs with
  | nil => rfl
  | cons h t ih =>
    by_cases hc : h.level ≤ lvl <;>
      simp [findEnd, List.find?_cons, hc, ih]

theorem headers_line_pos (content : String) : ∀ hd ∈ extract_headers content, 1 ≤ hd.line := by
  intro hd hmem
  unfold extract_headers at hmem
  rw [List.mem_filterMap] at hmem
  obtain ⟨p, _, hp⟩ := hmem
  cases hm : atxMatch p.2 with
  | none => rw [hm] at hp; simp at hp
  | some m =>
    rw [hm] at hp
    simp only [Option.map_some', Option.some_inj] at hp
    rw [← hp]
    exact Nat.succ_le_succ (Nat.zero_le _)

/-- C1: section extraction produces exactly one section per extracted header, in
document order; each section starts at its header's 1-based line and ends at the
line immediately before the next header whose level is numerically at most that
header's level, or at the last line of the document when no such header follows.
On the document with header levels [1,2,2,1] at lines 1,3,6,9, section B spans
lines 3-5 and section A spans lines 1-8. -/
theorem sections_one_per_header (content : String) (i : Nat) :
    (extract_sections content).length = (extract_headers content).length ∧
    ((extract_sections content)[i]?).map (fun s => (s.title, s.level, s.start_line, s.end_line)) =
      ((extract_headers content)[i]?).map (fun hd =>
        (hd.text, hd.level, hd.line,
          match ((extract_headers content).drop (i + 1)).find? (fun h2 => h2.level ≤ hd.level) with
          | some h2 => h2.line - 1
          | none => (linesOf content).length)) ∧
    (extract_sections mdC1doc).map (fun s => (s.title, s.start_line, s.end_line)) =
      [("A", 1, 8), ("B", 3, 5), ("C", 6, 8), ("D", 9, 9)] := by
  refine ⟨?_, ?_, by decide⟩
  · unfold extract_sections
    simp
  · unfold extract_sections
    simp only [List.getElem?_map, List.getElem?_enum]
    cases hh : (extract_headers content)[i]? with
    | none => rfl
    | some hd =>
      have hpos : 1 ≤ hd.line := headers_line_pos content hd (List.getElem?_mem hh)
      simp only [Option.map_some', Option.some_inj]
      rw [findEnd_eq_find?]
      have hline : hd.line - 1 + 1 = hd.line := by omega
      rw [hline]

/-- C2: the example document yields exactly 3 headers, exactly 3 sections and
content type tutorial_with_exercises, and the classification function agrees with
the specified priority cascade on all inputs. -/
theorem classify_example_tutorial_with_exercises :
    (extract_headers mdC2doc).length = 3 ∧
    (extract_sections mdC2doc).length = 3 ∧
    determine_content_type (extract_metadata mdC2doc) (extract_headers mdC2doc)
        (extract_code_blocks mdC2doc) = "tutorial_with_exercises" ∧
    (∀ (m : List (String × String)) (hs : List Header) (cb : List MdCodeBlock),
      determine_content_type m hs cb = content_type_spec m hs cb) :=
  ⟨by decide, by decide, by decide, fun _ _ _ => rfl⟩

/-- C7 counterexample: the line made of one hash mark and two spaces is returned as
a header although its trimmed text is empty, refuting the claim that every returned
header has non-empty text after a whitespace character. -/
theorem header_blank_text_counterexample :
    extract_headers c7doc = [{ level := 1, text := "", line := 1 }] := by decide

theorem strip_backoff (r : List Char) :
    pyStrip (r.drop (min ((r.takeWhile pySpace).length) (r.length - 1))) = pyStrip r := by
  have hle : (r.takeWhile pySpace).length ≤ r.length := takeWhile_len_le _ _
  by_cases hlt : (r.takeWhile pySpace).length < r.length
  · have hmin : min ((r.takeWhile pySpace).length) (r.length - 1)
        = (r.takeWhile pySpace).length := by omega
    rw [hmin, ← dropWhile_eq_dropLen]
    unfold pyStrip stripLead
    rw [dropWhile_dropWhile]
  · have heq : (r.takeWhile pySpace).length = r.length := by omega
    have hall : ∀ x ∈ r, pySpace x = true := takeWhile_all_of_len _ _ heq
    rw [all_space_pyStrip _ hall,
      all_space_pyStrip _ (fun x hx => hall x (List.mem_of_mem_drop hx))]

theorem atx_amended (i : Nat) (l : List Char) :
    (atxMatch l).map (fun m => ({ level := m.1, text := m.2, line := i + 1 } : Header)) =
      amendedHeaderOf i l := by
  unfold atxMatch amendedHeaderOf
  generalize (l.takeWhile (fun c => c = '#')).length = k
  generalize l.drop k = r
  by_cases h16 : 1 ≤ k ∧ k ≤ 6
  · rw [if_pos h16]
    cases r with
    | nil => simp
    | cons c cs =>
      cases cs with
      | nil => simp
      | cons d t =>
        dsimp only
        by_cases hc : pySpace c
        · have hcond : pySpace c = true ∧ d :: t ≠ [] := ⟨hc, by simp⟩
          rw [if_pos hcond, if_pos ⟨h16.1, h16.2, hc⟩]
          simp only [Option.map_some', Option.some_inj]
          have := strip_backoff (c :: d :: t)
          rw [this]
        · have hpair : ¬ (pySpace c = true ∧ d :: t ≠ []) := by simp [hc]
          rw [if_neg hpair, if_neg (by simp [hc])]
          rfl
  · rw [if_neg h16]
    cases r with
    | nil => rfl
    | cons c cs =>
      cases cs with
      | nil => rfl
      | cons d t =>
        dsimp only
        rw [if_neg (by tauto)]
        rfl

/-- C7 amended: header extraction equals the amended per-line rule applied to every
line with its 1-based position. -/
theorem extract_headers_amended (content : String) :
    extract_headers content =
      (linesOf content).enum.filterMap (fun p => amendedHeaderOf p.1 p.2) := by
  unfold extract_headers
  have : (fun (p : Nat × List Char) =>
      (atxMatch p.2).map (fun m => ({ level := m.1, text := m.2, line := p.1 + 1 } : Header)))
      = fun p => amendedHeaderOf p.1 p.2 := by
    funext p
    exact atx_amended p.1 p.2
  rw [this]

/-- C9: every line matching the ATX pattern is reported as a header, regardless of
any surrounding fence; in the concrete document the header inside the fence is
reported and ends the preceding section (section Top spans lines 1-2 only). -/
theorem headers_inside_fences :
    (∀ (content : String) (i : Nat) (l : List Char) (lvl : Nat) (txt : String),
      (linesOf content)[i]? = some l → atxMatch l = some (lvl, txt) →
      ({ level := lvl, text := txt, line := i + 1 } : Header) ∈ extract_headers content) ∧
    extract_headers c9doc = [⟨1, "Top", 1⟩, ⟨1, "Inside", 3⟩] ∧
    (extract_sections c9doc).map (fun s => (s.title, s.start_line, s.end_line)) =
      [("Top", 1, 2), ("Inside", 3, 5)] := by
  refine ⟨?_, by decide, by decide⟩
  intro content i l lvl txt hl hm
  unfold extract_headers
  rw [List.mem_filterMap]
  exact ⟨(i, l), List.mk_mem_enum_iff_getElem?.mpr hl, by simp [hm]⟩

theorem leadsWith_len {pat s : List Char} (h : leadsWith pat s = true) :
    pat.length ≤ s.length := by
  induction pat generalizing s with
  | nil => simp
  | cons p ps ih =>
    cases s with
    | nil => simp [leadsWith] at h
    | cons c cs =>
      simp only [leadsWith, Bool.and_eq_true] at h
      simp only [List.length_cons]
      exact Nat.succ_le_succ (ih h.2)

theorem leadsWith_refl (pat : List Char) : leadsWith pat pat = true := by
  induction pat with
  | nil => rfl
  | cons p ps ih => simp [leadsWith, ih]

theorem leadsWith_append_keep (pat : List Char) :
    ∀ (x y : List Char), pat.length ≤ x.length → leadsWith pat (x ++ y) = leadsWith pat x := by
  induction pat with
  | nil => intro x y _; rfl
  | cons p ps ih =>
    intro x y hlen
    cases x with
    | nil => simp at hlen
    | cons c cs =>
      show (decide (p = c) && leadsWith ps (cs ++ y)) = (decide (p = c) && leadsWith ps cs)
      rw [ih cs y (by simpa using hlen)]

theorem leadsWith_self_append (pat y : List Char) : leadsWith pat (pat ++ y) = true := by
  rw [leadsWith_append_keep pat pat y (Nat.le_refl _)]
  exact leadsWith_refl pat

theorem leadsWith_of_take {pat : List Char} :
    ∀ {x : List Char} {n : Nat}, leadsWith pat (x.take n) = true → leadsWith pat x = true := by
  induction pat with
  | nil => intro x n _; rfl
  | cons p ps ih =>
    intro x n h
    cases x with
    | nil => simpa using h
    | cons c cs =>
      cases n with
      | zero => simp [leadsWith] at h
      | succ n =>
        simp only [List.take_succ_cons, leadsWith, Bool.and_eq_true] at h
        simp only [leadsWith, Bool.and_eq_true]
        exact ⟨h.1, ih h.2⟩

theorem hasSub_iff (pat t : List Char) :
    hasSub pat t = true ↔ ∃ i, leadsWith pat (t.drop i) = true := by
  induction t with
  | nil =>
    simp only [hasSub]
    constructor
    · intro h; exact ⟨0, h⟩
    · rintro ⟨i, hi⟩; simpa using hi
  | cons c cs ih =>
    simp only [hasSub, Bool.or_eq_true, ih]
    constructor
    · rintro (h | ⟨i, hi⟩)
      · exact ⟨0, h⟩
      · exact ⟨i + 1, hi⟩
    · rintro ⟨i, hi⟩
      cases i with
      | zero => exact Or.inl hi
      | succ i => exact Or.inr ⟨i, hi⟩

theorem hasSub_drop_false {pat s : List Char} (h : hasSub pat s = false) (n : Nat) :
    hasSub pat (s.drop n) = false := by
  by_contra hcon
  rw [Bool.not_eq_false, hasSub_iff] at hcon
  obtain ⟨i, hi⟩ := hcon
  rw [List.drop_drop] at hi
  have : hasSub pat s = true := (hasSub_iff pat s).mpr ⟨n + i, hi⟩
  rw [h] at this
  exact Bool.false_ne_true this

theorem hasSub_take_false {pat s : List Char} (h : hasSub pat s = false) (n : Nat) :
    hasSub pat (s.take n) = false := by
  by_contra hcon
  rw [Bool.not_eq_false, hasSub_iff] at hcon
  obtain ⟨i, hi⟩ := hcon
  rw [List.drop_take] at hi
  have h2 : leadsWith pat (s.drop i) = true := leadsWith_of_take hi
  have : hasSub pat s = true := (hasSub_iff pat s).mpr ⟨i, h2⟩
  rw [h] at this
  exact Bool.false_ne_true this

theorem findSub_some {pat : List Char} :
    ∀ {s : List Char} {j : Nat}, findSub pat s = some j →
      leadsWith pat (s.drop j) = true ∧ ∀ i < j, leadsWith pat (s.drop i) = false := by
  intro s
  induction s with
  | nil =>
    intro j h
    unfold findSub at h
    by_cases hl : leadsWith pat [] = true
    · rw [if_pos hl] at h
      cases h
      exact ⟨hl, by omega⟩
    · rw [if_neg hl] at h
      cases h
  | cons c cs ih =>
    intro j h
    unfold findSub at h
    by_cases hl : leadsWith pat (c :: cs) = true
    · rw [if_pos hl] at h
      cases h
      exact ⟨hl, by omega⟩
    · rw [if_neg hl] at h
      cases hf : findSub pat cs with
      | none => rw [hf] at h; cases h
      | some j' =>
        rw [hf] at h
        simp only [Option.map_some', Option.some_inj] at h
        obtain ⟨h1, h2⟩ := ih hf
        subst h
        refine ⟨h1, ?_⟩
        intro i hi
        cases i with
        | zero => simpa using Bool.not_eq_true _ |>.mp hl
        | succ i => exact h2 i (by omega)

theorem hasSub_take_of_findSub {pat : List Char} (hp : pat ≠ []) {s : List Char} {j : Nat}
    (h : findSub pat s = some j) : hasSub pat (s.take j) = false := by
  by_contra hcon
  rw [Bool.not_eq_false, hasSub_iff] at hcon
  obtain ⟨i, hi⟩ := hcon
  by_cases hij : i < j
  · rw [List.drop_take] at hi
    have h2 : leadsWith pat (s.drop i) = true := leadsWith_of_take hi
    have h3 := (findSub_some h).2 i hij
    rw [h3] at h2
    exact Bool.false_ne_true h2
  · have hnil : (s.take j).drop i = [] := by
      apply List.drop_of_length_le
      have h1 : (s.take j).length ≤ j := by
        simp [List.length_take]
      omega
    rw [hnil] at hi
    cases pat with
    | nil => exact hp rfl
    | cons p ps => simp [leadsWith] at hi

theorem stripTail_take (s : List Char) : ∃ m, stripTail s = s.take m := by
  induction s with
  | nil => exact ⟨0, rfl⟩
  | cons c cs ih =>
    obtain ⟨m, hm⟩ := ih
    unfold stripTail
    by_cases h : stripTail cs = [] ∧ pySpace c = true
    · exact ⟨0, by simp [h.1, h.2]⟩
    · refine ⟨m + 1, ?_⟩
      rcases Decidable.not_and_iff_or_not.mp h with h1 | h1
      · simp only [List.take_succ_cons]
        rw [if_neg (by simp [h1]), hm]
      · simp only [List.take_succ_cons]
        rw [if_neg (by simp [h1]), hm]

theorem hasSub_stripTail_false {pat s : List Char} (h : hasSub pat s = false) :
    hasSub pat (stripTail s) = false := by
  obtain ⟨m, hm⟩ := stripTail_take s
  rw [hm]
  exact hasSub_take_false h m

theorem hasSub_pyStrip_false {pat s : List Char} (h : hasSub pat s = false) :
    hasSub pat (pyStrip s) = false := by
  unfold pyStrip stripLead
  rw [dropWhile_eq_dropLen]
  exact hasSub_stripTail_false (hasSub_drop_false h _)

theorem stripTail_cons (c : Char) (cs : List Char) :
    stripTail (c :: cs) =
      if stripTail cs = [] ∧ pySpace c = true then [] else c :: stripTail cs := by
  show (if (decide (stripTail cs = []) && pySpace c) = true then [] else c :: stripTail cs)
      = if stripTail cs = [] ∧ pySpace c = true then [] else c :: stripTail cs
  by_cases h1 : stripTail cs = [] <;> by_cases h2 : pySpace c = true <;>
    simp [h1, h2]

theorem stripTail_snoc_space {w : Char} (hw : pySpace w = true) (s : List Char) :
    stripTail (s ++ [w]) = stripTail s := by
  induction s with
  | nil => simp [stripTail, hw]
  | cons c cs ih =>
    rw [List.cons_append, stripTail_cons, stripTail_cons, ih]

theorem stripTail_idem (s : List Char) : stripTail (stripTail s) = stripTail s := by
  induction s with
  | nil => rfl
  | cons c cs ih =>
    rw [stripTail_cons]
    by_cases h : stripTail cs = [] ∧ pySpace c = true
    · rw [if_pos h]; rfl
    · rw [if_neg h, stripTail_cons, ih, if_neg h]

theorem stripLead_cons_not_space {c : Char} (hc : ¬ pySpace c = true) (cs : List Char) :
    stripLead (c :: cs) = c :: cs := by
  unfold stripLead
  simp [List.dropWhile_cons, hc]

theorem stripLead_stripLead (s : List Char) : stripLead (stripLead s) = stripLead s :=
  dropWhile_dropWhile pySpace s

theorem stripLead_head_not_space {s : List Char} {c : Char} {cs : List Char}
    (h : stripLead s = c :: cs) : ¬ pySpace c = true := by
  induction s with
  | nil => simp [stripLead] at h
  | cons a t ih =>
    by_cases ha : pySpace a = true
    · rw [show stripLead (a :: t) = stripLead t by simp [stripLead, List.dropWhile_cons, ha]] at h
      exact ih h
    · rw [stripLead_cons_not_space ha] at h
      cases h
      exact ha

theorem pyStrip_head_not_space {z : List Char} {c : Char} {cs : List Char}
    (hz : pyStrip z = c :: cs) : ¬ pySpace c = true := by
  obtain ⟨m, hm⟩ := stripTail_take (stripLead z)
  have hz' : (stripLead z).take m = c :: cs := by
    rw [← hm]; exact hz
  cases hsl : stripLead z with
  | nil => rw [hsl] at hz'; simp at hz'
  | cons a t =>
    have ha := stripLead_head_not_space hsl
    rw [hsl] at hz'
    cases m with
    | zero => simp at hz'
    | succ m =>
      simp only [List.take_succ_cons] at hz'
      obtain ⟨h1, -⟩ := List.cons.inj hz'
      rw [← h1]
      exact ha

theorem pyStrip_snoc_newline (z : List Char) : pyStrip (pyStrip z ++ ['\n']) = pyStrip z := by
  cases hz : pyStrip z with
  | nil =>
    show pyStrip ['\n'] = []
    decide
  | cons c cs =>
    have hc : ¬ pySpace c = true := pyStrip_head_not_space hz
    rw [← hz]
    show stripTail (stripLead (pyStrip z ++ ['\n'])) = pyStrip z
    have h1 : stripLead (pyStrip z ++ ['\n']) = pyStrip z ++ ['\n'] := by
      rw [hz]
      exact stripLead_cons_not_space hc _
    rw [h1, stripTail_snoc_space (by decide)]
    show stripTail (stripTail (stripLead z)) = stripTail (stripLead z)
    exact stripTail_idem _

theorem pyStrip_idem (z : List Char) : pyStrip (pyStrip z) = pyStrip z := by
  have h1 : stripLead (pyStrip z) = pyStrip z := by
    cases hz : pyStrip z with
    | nil => rfl
    | cons c cs => exact stripLead_cons_not_space (pyStrip_head_not_space hz) cs
  show stripTail (stripLead (pyStrip z)) = pyStrip z
  rw [h1]
  show stripTail (stripTail (stripLead z)) = pyStrip z
  rw [stripTail_idem]
  rfl

theorem tryFence_inv {s : List Char} {lang : Option (List Char)} {body after : List Char}
    (h : tryFence s = some (lang, body, after)) :
    after.length < s.length ∧ hasSub tbq body = false ∧
    (lang = none ∨ ∃ w, lang = some w ∧ w ≠ [] ∧ w.all isWordChar = true) := by
  unfold tryFence at h
  by_cases hl : leadsWith tbq s = true
  case neg => rw [if_neg hl] at h; cases h
  case pos =>
    rw [if_pos hl] at h
    have hslen : 3 ≤ s.length := leadsWith_len hl
    cases hd : (s.drop 3).drop ((s.drop 3).takeWhile isWordChar).length with
    | nil => rw [hd] at h; cases h
    | cons c body0 =>
      rw [hd] at h
      dsimp only at h
      by_cases hc : c = '\n'
      case neg => rw [if_neg hc] at h; cases h
      case pos =>
        rw [if_pos hc] at h
        cases hfs : findSub tbq body0 with
        | none => rw [hfs] at h; cases h
        | some j =>
          rw [hfs] at h
          obtain ⟨h1, h2, h3⟩ := Prod.mk.inj (Option.some.inj h) |>.imp id Prod.mk.inj
          refine ⟨?_, ?_, ?_⟩
          · have hlen := congrArg List.length hd
            simp only [List.length_drop, List.length_cons] at hlen
            rw [← h3]
            simp only [List.length_drop]
            omega
          · rw [← h2]
            exact hasSub_take_of_findSub (by decide) hfs
          · rw [← h1]
            by_cases hw : (s.drop 3).takeWhile isWordChar = []
            · rw [if_pos hw]; exact Or.inl rfl
            · rw [if_neg hw]
              refine Or.inr ⟨_, rfl, hw, ?_⟩
              exact List.all_eq_true.mpr (fun x hx => List.mem_takeWhile_imp hx)

theorem scanFenced_zero (s : List Char) (nl : Nat) : scanFenced 0 s nl = [] := rfl

theorem scanFenced_nil (fuel nl : Nat) : scanFenced fuel [] nl = [] := by
  cases fuel <;> rfl

theorem scanFenced_cons (fuel : Nat) (c : Char) (cs : List Char) (nl : Nat) :
    scanFenced (fuel + 1) (c :: cs) nl =
      match tryFence (c :: cs) with
      | some (lang, body, after) =>
        { language := match lang with | some w => String.mk w | none => "text"
          code := String.mk (pyStrip body)
          line := nl + 1
          type := "fenced" } :: scanFenced fuel after (nl + 1 + countNL body)
      | none => scanFenced fuel cs (nl + if c = '\n' then 1 else 0) := rfl

theorem scanFenced_inv : ∀ (fuel : Nat) (s : List Char) (nl : Nat), s.length ≤ fuel →
    ∀ b ∈ scanFenced fuel s nl,
      b.type = "fenced" ∧ hasSub tbq b.code.data = false ∧
      pyStrip b.code.data = b.code.data ∧
      b.language.data ≠ [] ∧ b.language.data.all isWordChar = true ∧ nl < b.line := by
  intro fuel
  induction fuel with
  | zero =>
    intro s nl _ b hb
    rw [scanFenced_zero] at hb
    simp at hb
  | succ fuel ih =>
    intro s nl hs b hb
    cases s with
    | nil => rw [scanFenced_nil] at hb; simp at hb
    | cons c cs =>
      rw [scanFenced_cons] at hb
      cases htf : tryFence (c :: cs) with
      | none =>
        rw [htf] at hb
        have hrec := ih cs _ (by simpa using Nat.le_of_succ_le_succ hs) b hb
        exact ⟨hrec.1, hrec.2.1, hrec.2.2.1, hrec.2.2.2.1, hrec.2.2.2.2.1,
          Nat.lt_of_le_of_lt (Nat.le_add_right nl _) hrec.2.2.2.2.2⟩
      | some t =>
        obtain ⟨lang, body, after⟩ := t
        rw [htf] at hb
        obtain ⟨hlt, hbody, hlang⟩ := tryFence_inv htf
        rcases List.mem_cons.mp hb with rfl | hb'
        · refine ⟨rfl, hasSub_pyStrip_false hbody, pyStrip_idem body, ?_, ?_, Nat.lt_succ_of_le (Nat.le_refl nl)⟩
          · rcases hlang with rfl | ⟨w, rfl, hne, _⟩
            · show ("text" : String).data ≠ []
              decide
            · simpa using hne
          · rcases hlang with rfl | ⟨w, rfl, _, hall⟩
            · show (("text" : String).data.all isWordChar) = true
              decide
            · simpa using hall
        · have hafter : after.length ≤ fuel := by
            have := hs
            simp only [List.length_cons] at this hlt
            omega
          have hrec := ih after _ hafter b hb'
          exact ⟨hrec.1, hrec.2.1, hrec.2.2.1, hrec.2.2.2.1, hrec.2.2.2.2.1, by
            have := hrec.2.2.2.2.2
            omega⟩

theorem scanFenced_sorted : ∀ (fuel : Nat) (s : List Char) (nl : Nat), s.length ≤ fuel →
    (scanFenced fuel s nl).Pairwise (fun a b => a.line < b.line) := by
  intro fuel
  induction fuel with
  | zero => intro s nl _; rw [scanFenced_zero]; exact List.Pairwise.nil
  | succ fuel ih =>
    intro s nl hs
    cases s with
    | nil => rw [scanFenced_nil]; exact List.Pairwise.nil
    | cons c cs =>
      rw [scanFenced_cons]
      cases htf : tryFence (c :: cs) with
      | none => exact ih cs _ (by simpa using Nat.le_of_succ_le_succ hs)
      | some t =>
        obtain ⟨lang, body, after⟩ := t
        obtain ⟨hlt, -, -⟩ := tryFence_inv htf
        have hafter : after.length ≤ fuel := by
          simp only [List.length_cons] at hs hlt
          omega
        refine List.Pairwise.cons ?_ (ih after _ hafter)
        intro b hb
        have := (scanFenced_inv fuel after _ hafter b hb).2.2.2.2.2
        show nl + 1 < b.line
        omega

theorem indentedScan_type : ∀ (ls : List (List Char)) (i : Nat)
    (st : Option (Nat × List (List Char))), ∀ b ∈ indentedScan ls i st, b.type = "indented" := by
  intro ls
  induction ls with
  | nil =>
    intro i st b hb
    cases st with
    | none => simp [indentedScan] at hb
    | some p =>
      obtain ⟨s0, cur⟩ := p
      simp only [indentedScan, List.mem_singleton] at hb
      rw [hb]
  | cons l ls ih =>
    intro i st b hb
    unfold indentedScan at hb
    by_cases h4 : leadsWith fourSpaces l = true
    · rw [if_pos h4] at hb
      cases st with
      | none => exact ih _ _ b hb
      | some p => obtain ⟨s0, cur⟩ := p; exact ih _ _ b hb
    · rw [if_neg h4] at hb
      by_cases ht : leadsWith ['\t'] l = true
      · rw [if_pos ht] at hb
        cases st with
        | none => exact ih _ _ b hb
        | some p => obtain ⟨s0, cur⟩ := p; exact ih _ _ b hb
      · rw [if_neg ht] at hb
        cases st with
        | none => exact ih _ _ b hb
        | some p =>
          obtain ⟨s0, cur⟩ := p
          rcases List.mem_cons.mp hb with rfl | hb'
          · rfl
          · exact ih _ _ b hb'

theorem indentedScan_bound : ∀ (ls : List (List Char)) (i : Nat)
    (st : Option (Nat × List (List Char))),
    (∀ s0 cur, st = some (s0, cur) → s0 ≤ i) →
    (∀ b ∈ indentedScan ls i st,
      (match st with | some (s0, _) => s0 | none => i + 1) ≤ b.line) ∧
    (indentedScan ls i st).Pairwise (fun a b => a.line < b.line) := by
  intro ls
  induction ls with
  | nil =>
    intro i st hst
    cases st with
    | none => exact ⟨by simp [indentedScan], by simp [indentedScan]⟩
    | some p =>
      obtain ⟨s0, cur⟩ := p
      constructor
      · intro b hb
        simp only [indentedScan, List.mem_singleton] at hb
        rw [hb]
      · simp only [indentedScan]
        exact List.pairwise_singleton _ _
  | cons l ls ih =>
    intro i st hst
    unfold indentedScan
    by_cases h4 : leadsWith fourSpaces l = true
    · rw [if_pos h4]
      cases st with
      | none =>
        have h := ih (i + 1) (some (i + 1, [l.drop 4])) (by intro s0 cur he; cases he; omega)
        exact ⟨fun b hb => h.1 b hb, h.2⟩
      | some p =>
        obtain ⟨s0, cur⟩ := p
        have hs0 : s0 ≤ i := hst s0 cur rfl
        have h := ih (i + 1) (some (s0, cur ++ [l.drop 4])) (by intro a b he; cases he; omega)
        exact ⟨fun b hb => h.1 b hb, h.2⟩
    · rw [if_neg h4]
      by_cases htb : leadsWith ['\t'] l = true
      · rw [if_pos htb]
        cases st with
        | none =>
          have h := ih (i + 1) (some (i + 1, [l.drop 1])) (by intro s0 cur he; cases he; omega)
          exact ⟨fun b hb => h.1 b hb, h.2⟩
        | some p =>
          obtain ⟨s0, cur⟩ := p
          have hs0 : s0 ≤ i := hst s0 cur rfl
          have h := ih (i + 1) (some (s0, cur ++ [l.drop 1])) (by intro a b he; cases he; omega)
          exact ⟨fun b hb => h.1 b hb, h.2⟩
      · rw [if_neg htb]
        cases st with
        | none =>
          have h := ih (i + 1) none (by intro s0 cur he; cases he)
          refine ⟨fun b hb => ?_, h.2⟩
          have hmono : i + 1 + 1 ≤ b.line := h.1 b hb
          show i + 1 ≤ b.line
          omega
        | some p =>
          obtain ⟨s0, cur⟩ := p
          have hs0 : s0 ≤ i := hst s0 cur rfl
          have h := ih (i + 1) none (by intro a b he; cases he)
          constructor
          · intro b hb
            rcases List.mem_cons.mp hb with rfl | hb'
            · exact Nat.le_refl _
            · have hmono : i + 1 + 1 ≤ b.line := h.1 b hb'
              show s0 ≤ b.line
              omega
          · refine List.Pairwise.cons ?_ h.2
            intro b hb
            have hmono : i + 1 + 1 ≤ b.line := h.1 b hb
            show s0 < b.line
            omega

/-- C10: extract_code_blocks returns all fenced blocks (in document order) first
and then all indented blocks (in document order), so the overall sequence is not
globally ordered by line number: in the concrete document the indented block on
line 1 comes after the fenced block on line 3. -/
theorem code_blocks_fenced_before_indented (content : String) :
    extract_code_blocks content = fencedBlocks content ++ indentedBlocks content ∧
    (∀ b ∈ fencedBlocks content, b.type = "fenced") ∧
    (∀ b ∈ indentedBlocks content, b.type = "indented") ∧
    (fencedBlocks content).Pairwise (fun a b => a.line < b.line) ∧
    (indentedBlocks content).Pairwise (fun a b => a.line < b.line) ∧
    extract_code_blocks c10doc =
      [{ language := "py", code := "a", line := 3, type := "fenced" },
       { language := "text", code := "x", line := 1, type := "indented" }] := by
  refine ⟨rfl, ?_, ?_, ?_, ?_, by decide⟩
  · intro b hb
    exact (scanFenced_inv _ _ _ (Nat.le_refl _) b hb).1
  · intro b hb
    exact indentedScan_type _ _ _ b hb
  · exact scanFenced_sorted _ _ _ (Nat.le_refl _)
  · exact (indentedScan_bound _ 0 none (by intro s0 cur h; cases h)).2

theorem takeWhile_word (w rest : List Char) (hw : w.all isWordChar = true) :
    (w ++ '\n' :: rest).takeWhile isWordChar = w := by
  induction w with
  | nil =>
    show List.takeWhile isWordChar ('\n' :: rest) = []
    rw [List.takeWhile_cons]
    simp [show isWordChar '\n' = false from by decide]
  | cons a w ih =>
    simp only [List.all_cons, Bool.and_eq_true] at hw
    show List.takeWhile isWordChar (a :: (w ++ '\n' :: rest)) = a :: w
    rw [List.takeWhile_cons]
    simp [hw.1, ih hw.2]

theorem findSub_cons (pat : List Char) (c : Char) (cs : List Char) :
    findSub pat (c :: cs) =
      if leadsWith pat (c :: cs) = true then some 0 else (findSub pat cs).map (· + 1) := rfl

theorem leadsWith_tbq_append_nl (c : Char) (cs : List Char)
    (h2 : leadsWith tbq (c :: cs) = false) :
    leadsWith tbq (c :: (cs ++ '\n' :: tbq)) = false := by
  have hb : decide (btick = '\n') = false := by decide
  cases cs with
  | nil =>
    show leadsWith tbq (c :: '\n' :: tbq) = false
    simp [tbq, leadsWith, hb]
  | cons d t =>
    cases t with
    | nil =>
      show leadsWith tbq (c :: d :: '\n' :: tbq) = false
      simp [tbq, leadsWith, hb]
    | cons e t' =>
      have hkeep : leadsWith tbq ((c :: d :: e :: t') ++ '\n' :: tbq)
          = leadsWith tbq (c :: d :: e :: t') := by
        apply leadsWith_append_keep
        simp [tbq]
      rw [show c :: ((d :: e :: t') ++ '\n' :: tbq) = (c :: d :: e :: t') ++ '\n' :: tbq from rfl]
      rw [hkeep]
      exact h2

theorem findSub_wrap (code : List Char) (h : hasSub tbq code = false) :
    findSub tbq (code ++ '\n' :: tbq) = some (code.length + 1) := by
  induction code with
  | nil =>
    show findSub tbq ('\n' :: tbq) = some 1
    decide
  | cons c cs ih =>
    have hsplit : leadsWith tbq (c :: cs) = false ∧ hasSub tbq cs = false := by
      unfold hasSub at h
      exact Bool.or_eq_false_iff.mp h
    have h3 := leadsWith_tbq_append_nl c cs hsplit.1
    show findSub tbq (c :: (cs ++ '\n' :: tbq)) = some ((c :: cs).length + 1)
    rw [findSub_cons, if_neg (by rw [h3]; exact Bool.false_ne_true)]
    rw [ih hsplit.2]
    simp

theorem tryFence_wrap (wtag code : List Char) (hw : wtag.all isWordChar = true)
    (hcode : hasSub tbq code = false) :
    tryFence (tbq ++ (wtag ++ '\n' :: (code ++ '\n' :: tbq)))
      = some (if wtag = [] then none else some wtag, code ++ ['\n'], []) := by
  unfold tryFence
  rw [if_pos (leadsWith_self_append tbq _)]
  have h3 : List.drop 3 (tbq ++ (wtag ++ '\n' :: (code ++ '\n' :: tbq)))
      = wtag ++ '\n' :: (code ++ '\n' :: tbq) := List.drop_left tbq _
  rw [h3, takeWhile_word wtag _ hw]
  have h4 : List.drop wtag.length (wtag ++ '\n' :: (code ++ '\n' :: tbq))
      = '\n' :: (code ++ '\n' :: tbq) := List.drop_left wtag _
  rw [h4]
  dsimp only
  rw [if_pos rfl, findSub_wrap code hcode]
  have h5 : (code ++ '\n' :: tbq).take (code.length + 1) = code ++ ['\n'] := by
    rw [show code.length + 1 = code.length + 1 from rfl, List.take_append]
    rfl
  have h6 : List.drop 3 ((code ++ '\n' :: tbq).drop (code.length + 1)) = [] := by
    rw [List.drop_append]
    rfl
  dsimp only
  rw [h5, h6]

theorem scanFenced_wrap (wtag code : List Char) (hw : wtag.all isWordChar = true)
    (hcode : hasSub tbq code = false) :
    scanFenced (tbq ++ (wtag ++ '\n' :: (code ++ '\n' :: tbq))).length
        (tbq ++ (wtag ++ '\n' :: (code ++ '\n' :: tbq))) 0 =
      [{ language := if wtag = [] then "text" else String.mk wtag
         code := String.mk (pyStrip (code ++ ['\n'])), line := 1, type := "fenced" }] := by
  have htf : tryFence (btick :: btick :: btick :: (wtag ++ '\n' :: (code ++ '\n' :: tbq)))
      = some (if wtag = [] then none else some wtag, code ++ ['\n'], []) :=
    tryFence_wrap wtag code hw hcode
  show scanFenced (btick :: btick :: btick :: (wtag ++ '\n' :: (code ++ '\n' :: tbq))).length
      (btick :: btick :: btick :: (wtag ++ '\n' :: (code ++ '\n' :: tbq))) 0 = _
  rw [List.length_cons, scanFenced_cons, htf]
  dsimp only
  rw [scanFenced_nil]
  have hlang : (match (if wtag = [] then none else some wtag) with
      | some w => String.mk w | none => ("text" : String))
      = (if wtag = [] then "text" else String.mk wtag) := by
    by_cases hwt : wtag = [] <;> simp [hwt]
  rw [hlang]

/-- C8: for every fenced block extracted from a document, re-parsing the extracted
code wrapped in the same fence (the original language tag, or the bare fence when
the block had none) yields exactly one fenced block whose language and code equal
the original block's. -/
theorem fenced_reparse_one_block (content : String) (b : MdCodeBlock)
    (hb : b ∈ extract_code_blocks content) (hf : b.type = "fenced")
    (tag : Option String)
    (htag : (tag = none ∧ b.language = "text") ∨ tag = some b.language) :
    (extract_code_blocks (wrapFence tag b.code)).filter (fun x => x.type == "fenced")
      = [{ language := b.language, code := b.code, line := 1, type := "fenced" }] := by
  have hbf : b ∈ fencedBlocks content := by
    rcases List.mem_append.mp hb with h | h
    · exact h
    · have hind := indentedScan_type _ _ _ b h
      rw [hf] at hind
      exact absurd hind (by decide)
  obtain ⟨-, hnosub, hstrip, hlne, hlword, -⟩ :=
    scanFenced_inv _ _ _ (Nat.le_refl _) b hbf
  have hcodeeq : pyStrip (b.code.data ++ ['\n']) = b.code.data := by
    conv_lhs => rw [← hstrip]
    rw [pyStrip_snoc_newline, hstrip]
  have hfilter_ind : ∀ (w : String),
      (indentedBlocks w).filter (fun x => x.type == "fenced") = [] := by
    intro w
    apply List.filter_eq_nil_iff.mpr
    intro a ha
    have := indentedScan_type _ _ _ a ha
    simp [this]
  rcases htag with ⟨rfl, hlangtext⟩ | rfl
  · have hscan := scanFenced_wrap [] b.code.data (by decide) hnosub
    show ((fencedBlocks (wrapFence none b.code)) ++ (indentedBlocks (wrapFence none b.code))).filter
        (fun x => x.type == "fenced") = _
    rw [List.filter_append, hfilter_ind]
    have hfb : fencedBlocks (wrapFence none b.code)
        = [{ language := "text", code := String.mk (pyStrip (b.code.data ++ ['\n'])),
             line := 1, type := "fenced" }] := hscan
    rw [hfb, hcodeeq]
    simp [hlangtext]
  · have hscan := scanFenced_wrap b.language.data b.code.data hlword hnosub
    show ((fencedBlocks (wrapFence (some b.language) b.code))
        ++ (indentedBlocks (wrapFence (some b.language) b.code))).filter
        (fun x => x.type == "fenced") = _
    rw [List.filter_append, hfilter_ind]
    have hfb : fencedBlocks (wrapFence (some b.language) b.code)
        = [{ language := if b.language.data = [] then "text" else String.mk b.language.data,
             code := String.mk (pyStrip (b.code.data ++ ['\n'])),
             line := 1, type := "fenced" }] := hscan
    rw [hfb, hcodeeq, if_neg hlne]
    simp

/-- C8 witness: a concrete document, its fenced block, and the re-parse result. -/
theorem fenced_reparse_one_block_witness :
    (extract_code_blocks (wrapFence (some "py") "x = 1")).filter (fun x => x.type == "fenced")
      = [{ language := "py", code := "x = 1", line := 1, type := "fenced" }] :=
  fenced_reparse_one_block "```py\nx = 1\n```"
    { language := "py", code := "x = 1", line := 1, type := "fenced" }
    (by decide) rfl (some "py") (Or.inr rfl)

/-- C3 counterexample: the response whose fence line is labeled structured is NOT
recovered — the extraction loop only recognizes fences starting with the json label
or an opening brace, so the parser returns the absent result instead of an empty
suggestion list. -/
theorem response_structured_fence_counterexample :
    parse_json_response c3fencedStructured = none := by
  set_option maxRecDepth 4000 in rfl

/-- C3 amended: a response fenced with the json label parses to a payload with an
empty suggestion list, and unparseable text yields the absent result without an
error. -/
theorem response_json_fence_parses :
    parse_json_response c3fencedJson = some (Json.obj [("suggestions", Json.arr [])]) ∧
    parse_json_response c3notJson = none := by
  constructor
  · set_option maxRecDepth 4000 in rfl
  · set_option maxRecDepth 4000 in rfl

/-- C4 counterexample: a skipped short file and a backend-failed long file produce
the same result entry (path mapped to the absent marker), so the skip outcome is
not distinguishable from a backend failure in the result set; only the call log
differs. -/
theorem skip_indistinguishable_counterexample :
    (analyze_with_ai c4failBackend [("a", c4short)]).1 = [("a", none)] ∧
    (analyze_with_ai c4failBackend [("a", c4long)]).1 = [("a", none)] ∧
    (analyze_with_ai c4failBackend [("a", c4short)]).2 = [] ∧
    (analyze_with_ai c4failBackend [("a", c4long)]).2 = ["a"] := by
  refine ⟨?_, ?_, ?_, ?_⟩ <;> set_option maxRecDepth 8000 in rfl

/-- C4 amended: for every file whose payload strips to fewer than 100 characters
(and which carries no processing-error marker), the orchestrator makes no backend
call for it and records the absent marker; but that marker is the same value a
backend failure produces, so the two outcomes are only distinguishable by the
calls made, not in the result set. -/
theorem short_content_skipped {α : Type} (backend : String → String → String → Option α)
    (items : List (String × ProcessedFile)) (i : Nat) (path : String) (d : ProcessedFile)
    (hit : items[i]? = some (path, d)) (herr : d.err = none)
    (hshort : (pyStrip d.processed_content.data).length < 100) :
    ((analyze_with_ai backend items).1)[i]? = some (path, none) ∧
    ((analyze_with_ai backend items).2 =
      (items.filter (fun p => p.2.err.isNone
        && decide (100 ≤ (pyStrip p.2.processed_content.data).length))).map Prod.fst) ∧
    ((items.map Prod.fst).Nodup → path ∉ (analyze_with_ai backend items).2) := by
  have hcalls : ∀ (l : List (String × ProcessedFile)),
      (analyze_with_ai backend l).2 =
        (l.filter (fun p => p.2.err.isNone
          && decide (100 ≤ (pyStrip p.2.processed_content.data).length))).map Prod.fst := by
    intro l
    induction l with
    | nil => rfl
    | cons hd tl ih =>
      obtain ⟨p, e⟩ := hd
      by_cases h1 : e.err.isSome
      · have h1' : e.err.isNone = false := by
          cases he : e.err <;> simp [he] at h1 ⊢
        simp only [analyze_with_ai, if_pos h1, List.filter_cons]
        rw [ih]
        simp [h1']
      · by_cases h2 : (pyStrip e.processed_content.data).length < 100
        · have h1' : e.err.isNone = true := by
            cases he : e.err <;> simp [he] at h1 ⊢
          simp only [analyze_with_ai, if_neg h1, if_pos h2, List.filter_cons]
          rw [ih]
          simp [h1', Nat.not_le_of_lt h2]
        · have h1' : e.err.isNone = true := by
            cases he : e.err <;> simp [he] at h1 ⊢
          simp only [analyze_with_ai, if_neg h1, if_neg h2, List.filter_cons]
          rw [ih]
          simp [h1', Nat.le_of_not_lt h2]
  refine ⟨?_, hcalls items, ?_⟩
  · clear hcalls
    induction items generalizing i with
    | nil => simp at hit
    | cons hd tl ih =>
      obtain ⟨p, e⟩ := hd
      cases i with
      | zero =>
        simp only [List.getElem?_cons_zero, Option.some_inj] at hit
        obtain ⟨rfl, rfl⟩ := Prod.mk.inj hit
        have hno : ¬ e.err.isSome = true := by simp [herr]
        simp only [analyze_with_ai, if_neg hno, if_pos hshort]
        simp
      | succ i =>
        simp only [List.getElem?_cons_succ] at hit
        have hrec := ih i hit
        by_cases h1 : e.err.isSome
        · simpa only [analyze_with_ai, if_pos h1, List.getElem?_cons_succ] using hrec
        · by_cases h2 : (pyStrip e.processed_content.data).length < 100
          · simpa only [analyze_with_ai, if_neg h1, if_pos h2,
              List.getElem?_cons_succ] using hrec
          · simpa only [analyze_with_ai, if_neg h1, if_neg h2,
              List.getElem?_cons_succ] using hrec
  · intro hnodup hmem
    rw [hcalls items] at hmem
    have hpath : path ∈ items.map Prod.fst := by
      have : (path, d) ∈ items := List.getElem?_mem hit
      exact List.mem_map.mpr ⟨(path, d), this, rfl⟩
    obtain ⟨q, hq, hqeq⟩ := List.mem_map.mp hmem
    have hqmem := List.mem_of_mem_filter hq
    have hflt := List.of_mem_filter hq
    -- q is an eligible entry with q.1 = path; the input entry at i is short.
    -- With distinct paths q must BE (path, d), contradicting eligibility.
    have : q = (path, d) := by
      have hinj := List.inj_on_of_nodup_map hnodup
      have h1 : (path, d) ∈ items := List.getElem?_mem hit
      exact hinj hqmem h1 (by simpa using hqeq)
    rw [this] at hflt
    simp only [herr, Option.isNone_none, Bool.true_and] at hflt
    have := of_decide_eq_true hflt
    omega

/-- C4 witness: the amended theorem applied to the concrete short file. -/
theorem short_content_skipped_witness :
    ((analyze_with_ai c4failBackend [("a", c4short)]).1)[0]? = some ("a", none) ∧
    ((analyze_with_ai c4failBackend [("a", c4short)]).2 =
      ([("a", c4short)].filter (fun p => p.2.err.isNone
        && decide (100 ≤ (pyStrip p.2.processed_content.data).length))).map Prod.fst) ∧
    ((([("a", c4short)]).map Prod.fst).Nodup →
      "a" ∉ (analyze_with_ai c4failBackend [("a", c4short)]).2) :=
  short_content_skipped c4failBackend [("a", c4short)] 0 "a" c4short (by rfl) rfl (by decide)

theorem analyze_with_ai_fst {α : Type} (backend : String → String → String → Option α) :
    ∀ (l : List (String × ProcessedFile)),
      ((analyze_with_ai backend l).1).map Prod.fst = l.map Prod.fst := by
  intro l
  induction l with
  | nil => rfl
  | cons hd tl ih =>
    obtain ⟨p, e⟩ := hd
    by_cases h1 : e.err.isSome = true
    · simp only [analyze_with_ai, if_pos h1, List.map_cons]
      rw [ih]
    · by_cases h2 : (pyStrip e.processed_content.data).length < 100
      · simp only [analyze_with_ai, if_neg h1, if_pos h2, List.map_cons]
        rw [ih]
      · simp only [analyze_with_ai, if_neg h1, if_neg h2, List.map_cons]
        rw [ih]

theorem process_all_content_fst (proc : String → String → Except String ParsedContent)
    (items : List (String × String)) :
    (process_all_content proc items).map Prod.fst = items.map Prod.fst := by
  induction items with
  | nil => rfl
  | cons hd tl ih =>
    obtain ⟨p, c⟩ := hd
    simp only [process_all_content, List.map_cons] at ih ⊢
    cases hp : proc p c <;> simp [hp, ih]

/-- C5: one file's processing failure never aborts the batch: the result map has one
entry per input file in order; a file whose processing raised is recorded with the
absent marker, and every other eligible file still gets its backend result. On the
concrete three-file batch whose second file raises, files 1 and 3 carry backend
results and file 2 the absent marker. -/
theorem per_file_isolation {α : Type} (proc : String → String → Except String ParsedContent)
    (backend : String → String → String → Option α) (items : List (String × String)) :
    (((analyze_with_ai backend (process_all_content proc items)).1).map Prod.fst
        = items.map Prod.fst) ∧
    (∀ (i : Nat) (path c e : String), items[i]? = some (path, c) → proc path c = .error e →
      ((analyze_with_ai backend (process_all_content proc items)).1)[i]? = some (path, none)) ∧
    (∀ (i : Nat) (path c : String) (d : ParsedContent),
      items[i]? = some (path, c) → proc path c = .ok d →
      ¬ (pyStrip d.processed_content.data).length < 100 →
      ((analyze_with_ai backend (process_all_content proc items)).1)[i]?
        = some (path, backend d.processed_content path (d.title.getD path))) ∧
    ((analyze_with_ai c5backend (process_all_content c5proc c5items)).1
        = [("f1", some "f1"), ("f2", none), ("f3", some "f3")]) := by
  refine ⟨?_, ?_, ?_, by set_option maxRecDepth 8000 in rfl⟩
  · rw [analyze_with_ai_fst, process_all_content_fst]
  · intro i path c e hit hp
    induction items generalizing i with
    | nil => simp at hit
    | cons hd tl ih =>
      obtain ⟨p0, c0⟩ := hd
      cases i with
      | zero =>
        simp only [List.getElem?_cons_zero, Option.some_inj] at hit
        obtain ⟨rfl, rfl⟩ := Prod.mk.inj hit
        simp only [process_all_content, List.map_cons, hp]
        simp [analyze_with_ai]
      | succ i =>
        simp only [List.getElem?_cons_succ] at hit
        have hrec := ih i hit
        simp only [process_all_content, List.map_cons] at hrec ⊢
        cases hp0 : proc p0 c0 with
        | ok d0 =>
          by_cases h2 : (pyStrip d0.processed_content.data).length < 100 <;>
            simp only [hp0] at hrec ⊢ <;>
            simp only [analyze_with_ai, h2] <;>
            simpa using hrec
        | error e0 =>
          simp only [hp0] at hrec ⊢
          simp only [analyze_with_ai]
          simpa using hrec
  · intro i path c d hit hp hlong
    induction items generalizing i with
    | nil => simp at hit
    | cons hd tl ih =>
      obtain ⟨p0, c0⟩ := hd
      cases i with
      | zero =>
        simp only [List.getElem?_cons_zero, Option.some_inj] at hit
        obtain ⟨rfl, rfl⟩ := Prod.mk.inj hit
        simp only [process_all_content, List.map_cons, hp]
        simp [analyze_with_ai, hlong]
      | succ i =>
        simp only [List.getElem?_cons_succ] at hit
        have hrec := ih i hit
        simp only [process_all_content, List.map_cons] at hrec ⊢
        cases hp0 : proc p0 c0 with
        | ok d0 =>
          by_cases h2 : (pyStrip d0.processed_content.data).length < 100 <;>
            simp only [hp0] at hrec ⊢ <;>
            simp only [analyze_with_ai, h2] <;>
            simpa using hrec
        | error e0 =>
          simp only [hp0] at hrec ⊢
          simp only [analyze_with_ai]
          simpa using hrec

/-- C5 witness: the isolation theorem applied to the three-file batch whose second
file raises during processing. -/
theorem per_file_isolation_witness :
    ((analyze_with_ai c5backend (process_all_content c5proc c5items)).1)[1]?
      = some ("f2", none) :=
  (per_file_isolation c5proc c5backend c5items).2.1 1 "f2" "x" "parse failure"
    (by rfl) (by rfl)

/-- C6: whenever the external load step signals either of the failure kinds the
source catches (invalid structural JSON or failed schema validation), the loader
returns the absent notebook, and the structural analysis is exactly the failed
marker — by its type it can never be a partially populated structure, and no
exception reaches the caller. -/
theorem notebook_invalid_yields_no_structure
    (loader : String → Except LoadErr Notebook) (content fp : String) (e : LoadErr)
    (h : loader content = .error e) :
    load_notebook loader content = none ∧
    analyze_notebook_structure loader content fp = .error "Failed to load notebook" := by
  constructor
  · unfold load_notebook
    rw [h]
  · unfold analyze_notebook_structure load_notebook
    rw [h]

/-- C6 witness: the theorem applied to a concrete malformed input. -/
theorem notebook_invalid_yields_no_structure_witness :
    load_notebook c6loader "not a notebook" = none ∧
    analyze_notebook_structure c6loader "not a notebook" "nb.ipynb"
      = .error "Failed to load notebook" :=
  notebook_invalid_yields_no_structure c6loader "not a notebook" "nb.ipynb"
    LoadErr.decodeError rfl

/-- C9 witness: the in-fence header line of the concrete document is reported. -/
theorem headers_inside_fences_witness :
    ({ level := 1, text := "Inside", line := 3 } : Header) ∈ extract_headers c9doc :=
  headers_inside_fences.1 c9doc 2 "# Inside".data 1 "Inside" (by rfl) (by decide)

/-- C10 witness: the order theorem applied to the concrete document's fenced block. -/
theorem code_blocks_fenced_before_indented_witness :
    ({ language := "py", code := "a", line := 3, type := "fenced" } : MdCodeBlock).type
      = "fenced" :=
  (code_blocks_fenced_before_indented c10doc).2.1
    { language := "py", code := "a", line := 3, type := "fenced" } (by decide)

end HSF
